import Mathlib

/-!
# Verification of the chessington move-generation engine

Shallow embedding of `src/chessington/engine/pieces.py`.  Pieces are pure
functions of the acting player, the `has_moved` flag, the piece's current
square (the result of the board's reverse lookup `find_piece`) and the board.
The board collaborator (`board.py`, external to the engine core) is modelled
by its interface: a `board_size` and an occupancy oracle `get_piece`.
-/

set_option autoImplicit false

namespace Chessington

/-- Modelled from the spec: `Player` is a two-valued enumeration (WHITE and
BLACK) from `chessington/engine/data.py`, which is outside the engine core. -/
inductive Player where
  | WHITE : Player
  | BLACK : Player
deriving DecidableEq, Repr

/-- Modelled from the spec: `Square` is an immutable (row, col) pair of
integers with value equality, from `chessington/engine/data.py`.  The Python
constructor `Square.at(row, col)` is the structure constructor `Square.mk`. -/
structure Square where
  row : Int
  col : Int
deriving DecidableEq, Repr

/-- The only attribute of a piece that the occupancy oracle exposes to the
move generator is its owning player (`board.get_piece(square).player`). -/
structure OccPiece where
  player : Player
deriving DecidableEq, Repr

/-- Modelled from the spec: the Board collaborator's interface, an occupancy
oracle `get_piece : square -> occupant or none` together with a `board_size`
(`chessington/engine/board.py` is outside the engine core). -/
structure Board where
  board_size : Int
  get_piece : Square → Option OccPiece

/-- Embeds `Piece.inside_board` (pieces.py lines 32-38):
`row < size and row >= 0 and col < size and col >= 0`. -/
def inside_board (sq : Square) (board : Board) : Bool :=
  decide (sq.row < board.board_size) && decide (sq.row ≥ 0) &&
    decide (sq.col < board.board_size) && decide (sq.col ≥ 0)

/-- Embeds `Piece.is_enemy` (pieces.py lines 40-43): the square is occupied and the
occupant's player differs from the acting piece's player. -/
def is_enemy (me : Player) (sq : Square) (board : Board) : Bool :=
  match board.get_piece sq with
  | some p => decide (p.player ≠ me)
  | none => false

/-- Embeds `Piece.can_move` (pieces.py lines 45-48): inside the board and
(empty or enemy-occupied). -/
def can_move (me : Player) (sq : Square) (board : Board) : Bool :=
  inside_board sq board && (decide (board.get_piece sq = none) || is_enemy me sq board)

/-- The pawn's advance direction (pieces.py line 60):
`row_dir = 1 if self.player == Player.WHITE else -1`. -/
def pawn_row_dir (me : Player) : Int :=
  if me = Player.WHITE then 1 else -1

/-- Embeds `Pawn.get_available_moves` (pieces.py lines 55-74), with the result of
`board.find_piece(self)` passed in as `current` and `self.has_moved` as
`has_moved`.  The imperative appends to `available_moves` become a chain of
list extensions in the same order. -/
def pawn_available_moves (me : Player) (has_moved : Bool) (current : Square)
    (board : Board) : List Square :=
  let row := current.row
  let col := current.col
  let row_dir := pawn_row_dir me
  let sq := Square.mk (row + row_dir) col
  if inside_board sq board && decide (board.get_piece sq = none) then
    let moves1 := [sq]
    let sqr := Square.mk (row + row_dir) (col + 1)
    let moves2 := if inside_board sqr board && is_enemy me sqr board then
        moves1 ++ [sqr] else moves1
    let sql := Square.mk (row + row_dir) (col - 1)
    let moves3 := if inside_board sql board && is_enemy me sql board then
        moves2 ++ [sql] else moves2
    if has_moved = false then
      let sq2 := Square.mk (row + 2 * row_dir) col
      if inside_board sq2 board && decide (board.get_piece sq2 = none) then
        moves3 ++ [sq2]
      else moves3
    else moves3
  else []

/-- The knight's eight offsets (pieces.py lines 87-88), zipped into pairs in
enumeration order `(x[i], y[i])`. -/
def knight_offsets : List (Int × Int) :=
  [(-2, 1), (-2, -1), (-1, 2), (-1, -2), (1, 2), (1, -2), (2, -1), (2, 1)]

/-- Embeds `Knight.get_available_moves` (pieces.py lines 82-93): for each offset,
append the offset square iff `can_move` holds. -/
def knight_available_moves (me : Player) (current : Square) (board : Board) :
    List Square :=
  (knight_offsets.map (fun d => Square.mk (current.row + d.1) (current.col + d.2))).filter
    (fun sq => can_move me sq board)

/-- Embeds `Bishop.get_available_moves` (pieces.py lines 101-102): `return []`. -/
def bishop_available_moves (_me : Player) (_current : Square) (_board : Board) :
    List Square :=
  []

/-- Embeds `Rook.get_available_moves` (pieces.py lines 110-111): `return []`. -/
def rook_available_moves (_me : Player) (_current : Square) (_board : Board) :
    List Square :=
  []

/-- The loop condition each of the Queen's eight scanning loops places on one
coordinate, as a function of that coordinate's step `d`: a coordinate stepped
upward is checked against `board_size` (`i < board.board_size` /
`j < board.board_size`), a coordinate stepped downward is checked against 0
(`i >= 0` / `j >= 0`), and an unchanging coordinate is not checked at all. -/
def scan_cond (board : Board) (d : Int) (x : Int) : Prop :=
  (0 < d → x < board.board_size) ∧ (d < 0 → 0 ≤ x)

instance (board : Board) (d x : Int) : Decidable (scan_cond board d x) := by
  unfold scan_cond
  exact inferInstance

/-- One directional scanning loop of `Queen.get_available_moves`
(pieces.py lines 124-207), parameterized by the per-step increments
`(dr, dc)`; `(i, j)` is the loop variable pair, starting one step away from
the queen.  Each of the eight Python loops is this function at one of the
eight unit directions: the loop guard is exactly
`scan_cond board dr i ∧ scan_cond board dc j`, the body appends an empty
square and continues, or appends an enemy-occupied square and breaks, or
breaks on a friendly-occupied square.  The leading `dr = 0 ∧ dc = 0` guard is
never taken at the eight directions used; it only makes the recursion
well-founded. -/
def queen_scan_dir (me : Player) (board : Board) (dr dc : Int) (i j : Int) :
    List Square :=
  if dr = 0 ∧ dc = 0 then []
  else if scan_cond board dr i ∧ scan_cond board dc j then
    match board.get_piece (Square.mk i j) with
    | none => Square.mk i j :: queen_scan_dir me board dr dc (i + dr) (j + dc)
    | some _ =>
      if is_enemy me (Square.mk i j) board then [Square.mk i j] else []
  else []
termination_by
  ((if dr = 0 then 0 else if 0 < dr then board.board_size - i else i + 1).toNat +
    (if dc = 0 then 0 else if 0 < dc then board.board_size - j else j + 1).toNat)
decreasing_by
  rename_i hne hcond
  unfold scan_cond at hcond
  split_ifs <;> omega

/-- The Queen's eight scan directions in the order the loops appear in
`Queen.get_available_moves`: up, down, right, left, up-right, up-left,
down-right, down-left. -/
def queen_directions : List (Int × Int) :=
  [(1, 0), (-1, 0), (0, 1), (0, -1), (1, 1), (1, -1), (-1, 1), (-1, -1)]

/-- Embeds `Queen.get_available_moves` (pieces.py lines 119-208): the concatenation
of the eight directional scanning loops, each starting one step away from the
queen's square, in source order. -/
def queen_available_moves (me : Player) (current : Square) (board : Board) :
    List Square :=
  let row := current.row
  let col := current.col
  queen_scan_dir me board 1 0 (row + 1) col ++
    queen_scan_dir me board (-1) 0 (row - 1) col ++
    queen_scan_dir me board 0 1 row (col + 1) ++
    queen_scan_dir me board 0 (-1) row (col - 1) ++
    queen_scan_dir me board 1 1 (row + 1) (col + 1) ++
    queen_scan_dir me board 1 (-1) (row + 1) (col - 1) ++
    queen_scan_dir me board (-1) 1 (row - 1) (col + 1) ++
    queen_scan_dir me board (-1) (-1) (row - 1) (col - 1)

/-- The king's offset components (pieces.py line 221): `change = [-1,0,1]`. -/
def king_change : List Int := [-1, 0, 1]

/-- Embeds `King.get_available_moves` (pieces.py lines 216-227): two nested loops
over `king_change` (note the `(0,0)` offset, the king's own square, is
generated too), appending each offset square iff `can_move` holds. -/
def king_available_moves (me : Player) (current : Square) (board : Board) :
    List Square :=
  ((king_change.map (fun row_change =>
      king_change.map (fun col_change =>
        Square.mk (current.row + row_change) (current.col + col_change)))).flatten).filter
    (fun sq => can_move me sq board)

/-- The closed set of piece variants (one tag per subclass of `Piece`). -/
inductive PieceKind where
  | Pawn : PieceKind
  | Knight : PieceKind
  | Bishop : PieceKind
  | Rook : PieceKind
  | Queen : PieceKind
  | King : PieceKind
deriving DecidableEq, Repr

/-- The polymorphic `get_available_moves` entry point: dispatch on the piece
variant (only the Pawn reads `has_moved`). -/
def get_available_moves (kind : PieceKind) (me : Player) (has_moved : Bool)
    (current : Square) (board : Board) : List Square :=
  match kind with
  | PieceKind.Pawn => pawn_available_moves me has_moved current board
  | PieceKind.Knight => knight_available_moves me current board
  | PieceKind.Bishop => bishop_available_moves me current board
  | PieceKind.Rook => rook_available_moves me current board
  | PieceKind.Queen => queen_available_moves me current board
  | PieceKind.King => king_available_moves me current board

/-- Modelled from the spec: the Board collaborator's
`move_piece(from, to)` relocates whatever occupies `from` to `to`,
overwriting any prior occupant of `to` (spec section 6;
`chessington/engine/board.py` is outside the engine core). -/
def Board.move_piece (board : Board) (fromSquare toSquare : Square) : Board :=
  { board_size := board.board_size
    get_piece := fun sq =>
      if sq = toSquare then board.get_piece fromSquare
      else if sq = fromSquare then none
      else board.get_piece sq }

/-- Embeds `Piece.move_to` (pieces.py lines 24-30): look up the piece's current
square (`board.find_piece(self)`, passed in as `current_square`), relocate it
on the board, and set `has_moved = True`.  Returns the new board together
with the new value of the piece's `has_moved` flag. -/
def move_to (board : Board) (current_square new_square : Square)
    (_has_moved : Bool) : Board × Bool :=
  (board.move_piece current_square new_square, true)

/-- An empty board of side 8 (the tests' `Board.empty()` occupancy). -/
def emptyBoard8 : Board :=
  { board_size := 8, get_piece := fun _ => none }

/-- A board of side 8 holding exactly the listed occupants. -/
def boardWith (entries : List (Square × OccPiece)) : Board :=
  { board_size := 8
    get_piece := fun sq => (entries.find? (fun e => e.1 = sq)).map (fun e => e.2) }

/-! ## Basic lemmas about the shared geometry helpers -/

theorem inside_board_eq_true_iff (sq : Square) (board : Board) :
    inside_board sq board = true ↔
      0 ≤ sq.row ∧ sq.row < board.board_size ∧ 0 ≤ sq.col ∧ sq.col < board.board_size := by
  simp only [inside_board, Bool.and_eq_true, decide_eq_true_eq, ge_iff_le]
  tauto

theorem is_enemy_eq_true_iff (me : Player) (sq : Square) (board : Board) :
    is_enemy me sq board = true ↔
      ∃ p, board.get_piece sq = some p ∧ p.player ≠ me := by
  unfold is_enemy
  cases h : board.get_piece sq with
  | none => simp
  | some p => simp [h]

theorem is_enemy_of_none (me : Player) (sq : Square) (board : Board)
    (h : board.get_piece sq = none) : is_enemy me sq board = false := by
  unfold is_enemy
  rw [h]

theorem can_move_eq_true_iff (me : Player) (sq : Square) (board : Board) :
    can_move me sq board = true ↔
      inside_board sq board = true ∧
        (board.get_piece sq = none ∨ is_enemy me sq board = true) := by
  simp only [can_move, Bool.and_eq_true, Bool.or_eq_true, decide_eq_true_eq]

theorem pawn_row_dir_ne_zero (me : Player) : pawn_row_dir me ≠ 0 := by
  cases me <;> simp [pawn_row_dir]

theorem pawn_row_dir_eq_one_or_neg_one (me : Player) :
    pawn_row_dir me = 1 ∨ pawn_row_dir me = -1 := by
  cases me <;> simp [pawn_row_dir]

/-! ## The pawn: membership characterization -/

/-- Complete characterization of `Pawn.get_available_moves` membership: the
one-step-forward gate, then the four candidate squares with their individual
conditions. -/
theorem pawn_mem_iff (me : Player) (hm : Bool) (row col : Int) (board : Board)
    (sq : Square) :
    sq ∈ pawn_available_moves me hm (Square.mk row col) board ↔
      (inside_board (Square.mk (row + pawn_row_dir me) col) board = true ∧
        board.get_piece (Square.mk (row + pawn_row_dir me) col) = none) ∧
      (sq = Square.mk (row + pawn_row_dir me) col ∨
        (sq = Square.mk (row + pawn_row_dir me) (col + 1) ∧
          inside_board (Square.mk (row + pawn_row_dir me) (col + 1)) board = true ∧
          is_enemy me (Square.mk (row + pawn_row_dir me) (col + 1)) board = true) ∨
        (sq = Square.mk (row + pawn_row_dir me) (col - 1) ∧
          inside_board (Square.mk (row + pawn_row_dir me) (col - 1)) board = true ∧
          is_enemy me (Square.mk (row + pawn_row_dir me) (col - 1)) board = true) ∨
        (hm = false ∧ sq = Square.mk (row + 2 * pawn_row_dir me) col ∧
          inside_board (Square.mk (row + 2 * pawn_row_dir me) col) board = true ∧
          board.get_piece (Square.mk (row + 2 * pawn_row_dir me) col) = none)) := by
  unfold pawn_available_moves
  simp only [Bool.and_eq_true, decide_eq_true_eq]
  split_ifs with h1 h2 h3 h4 h5 h6 h7 h8 h9 h10 h11 <;>
    simp_all [List.mem_append, List.mem_singleton] <;> aesop

/-! ## The queen's directional scanning loop -/

theorem queen_scan_dir_unfold (me : Player) (board : Board) (dr dc i j : Int)
    (hne : ¬(dr = 0 ∧ dc = 0)) :
    queen_scan_dir me board dr dc i j =
      if scan_cond board dr i ∧ scan_cond board dc j then
        match board.get_piece (Square.mk i j) with
        | none => Square.mk i j :: queen_scan_dir me board dr dc (i + dr) (j + dc)
        | some _ =>
          if is_enemy me (Square.mk i j) board then [Square.mk i j] else []
      else [] := by
  rw [queen_scan_dir]
  rw [if_neg hne]

/-- Soundness of one directional scan: every square it returns is the `n`-th
step of the ray, the loop guard held at every step up to `n`, every strictly
earlier step was empty, and the returned square is empty or enemy-occupied. -/
theorem queen_scan_dir_sound (me : Player) (board : Board) (dr dc : Int) :
    ∀ i j : Int, ∀ sq ∈ queen_scan_dir me board dr dc i j,
      ∃ n : Nat, sq = Square.mk (i + n * dr) (j + n * dc) ∧
        (∀ m : Nat, m ≤ n →
          scan_cond board dr (i + m * dr) ∧ scan_cond board dc (j + m * dc)) ∧
        (∀ m : Nat, m < n →
          board.get_piece (Square.mk (i + m * dr) (j + m * dc)) = none) ∧
        (board.get_piece sq = none ∨ is_enemy me sq board = true) := by
  intro i j
  induction i, j using queen_scan_dir.induct me board dr dc with
  | case1 i j hz =>
    intro sq hsq
    rw [queen_scan_dir, if_pos hz] at hsq
    simp at hsq
  | case2 i j hne hcond hnone ih =>
    intro sq hsq
    rw [queen_scan_dir_unfold me board dr dc i j hne, if_pos hcond] at hsq
    simp only [hnone, List.mem_cons] at hsq
    rcases hsq with hsq | hsq
    · refine ⟨0, by simpa using hsq, ?_, by omega, ?_⟩
      · intro m hm
        have : m = 0 := by omega
        subst this
        simpa using hcond
      · rw [hsq]
        exact Or.inl hnone
    · obtain ⟨n, hsq', hcondn, hemptyn, hocc⟩ := ih sq hsq
      refine ⟨n + 1, ?_, ?_, ?_, hocc⟩
      · rw [hsq']
        have h1 : i + dr + (n : Int) * dr = i + ((n : Nat) + 1 : Nat) * dr := by
          push_cast
          ring
        have h2 : j + dc + (n : Int) * dc = j + ((n : Nat) + 1 : Nat) * dc := by
          push_cast
          ring
        rw [h1, h2]
      · intro m hm
        cases m with
        | zero => simpa using hcond
        | succ m' =>
          have hm' : m' ≤ n := by omega
          have := hcondn m' hm'
          have e1 : i + (m' + 1 : Nat) * dr = i + dr + (m' : Int) * dr := by
            push_cast
            ring
          have e2 : j + (m' + 1 : Nat) * dc = j + dc + (m' : Int) * dc := by
            push_cast
            ring
          rw [e1, e2]
          exact this
      · intro m hm
        cases m with
        | zero => simpa using hnone
        | succ m' =>
          have hm' : m' < n := by omega
          have := hemptyn m' hm'
          have e1 : i + (m' + 1 : Nat) * dr = i + dr + (m' : Int) * dr := by
            push_cast
            ring
          have e2 : j + (m' + 1 : Nat) * dc = j + dc + (m' : Int) * dc := by
            push_cast
            ring
          rw [e1, e2]
          exact this
  | case3 i j hne hcond p hp hen =>
    intro sq hsq
    rw [queen_scan_dir_unfold me board dr dc i j hne, if_pos hcond] at hsq
    simp only [hp, if_pos hen, List.mem_singleton] at hsq
    subst hsq
    refine ⟨0, by simp, ?_, by omega, Or.inr (by simpa using hen)⟩
    intro m hm
    have : m = 0 := by omega
    subst this
    simpa using hcond
  | case4 i j hne hcond p hp hen =>
    intro sq hsq
    rw [queen_scan_dir_unfold me board dr dc i j hne, if_pos hcond] at hsq
    simp only [hp, if_neg hen] at hsq
    simp at hsq
  | case5 i j hne hcond =>
    intro sq hsq
    rw [queen_scan_dir_unfold me board dr dc i j hne, if_neg hcond] at hsq
    simp at hsq

/-- Completeness of one directional scan: if the loop guard holds up to step
`n`, every step before `n` is empty, and step `n` is empty or enemy-occupied,
then the step-`n` square is returned. -/
theorem queen_scan_dir_complete (me : Player) (board : Board) (dr dc : Int)
    (hne : ¬(dr = 0 ∧ dc = 0)) :
    ∀ (n : Nat) (i j : Int),
      (∀ m : Nat, m ≤ n →
        scan_cond board dr (i + m * dr) ∧ scan_cond board dc (j + m * dc)) →
      (∀ m : Nat, m < n →
        board.get_piece (Square.mk (i + m * dr) (j + m * dc)) = none) →
      (board.get_piece (Square.mk (i + n * dr) (j + n * dc)) = none ∨
        is_enemy me (Square.mk (i + n * dr) (j + n * dc)) board = true) →
      Square.mk (i + n * dr) (j + n * dc) ∈ queen_scan_dir me board dr dc i j := by
  intro n
  induction n with
  | zero =>
    intro i j hcond _ hocc
    have hc0 := hcond 0 (by omega)
    simp only [Nat.cast_zero, zero_mul, add_zero] at hc0 hocc
    rw [queen_scan_dir_unfold me board dr dc i j hne, if_pos hc0]
    cases hgp : board.get_piece (Square.mk i j) with
    | none => simp
    | some p =>
      rw [hgp] at hocc
      rcases hocc with hocc | hocc
      · exact absurd hocc (by simp)
      · simp only [hocc, if_pos]
        simp
  | succ n' ih =>
    intro i j hcond hempty hocc
    have hc0 := hcond 0 (by omega)
    simp only [Nat.cast_zero, zero_mul, add_zero] at hc0
    have h0 : board.get_piece (Square.mk i j) = none := by
      have := hempty 0 (by omega)
      simpa using this
    rw [queen_scan_dir_unfold me board dr dc i j hne, if_pos hc0, h0]
    have e1 : ∀ m : Nat, i + ((m + 1 : Nat) : Int) * dr = i + dr + (m : Int) * dr := by
      intro m
      push_cast
      ring
    have e2 : ∀ m : Nat, j + ((m + 1 : Nat) : Int) * dc = j + dc + (m : Int) * dc := by
      intro m
      push_cast
      ring
    have hmem := ih (i + dr) (j + dc) ?_ ?_ ?_
    · rw [e1 n', e2 n']
      right
      exact hmem
    · intro m hm
      have := hcond (m + 1) (by omega)
      rw [e1 m, e2 m] at this
      exact this
    · intro m hm
      have := hempty (m + 1) (by omega)
      rw [e1 m, e2 m] at this
      exact this
    · have := hocc
      rw [e1 n', e2 n'] at this
      exact this

/-- Invariant on the unchecked side of a scanning coordinate: a coordinate
stepped upward never falls below 0, a coordinate stepped downward never
reaches `board_size`, and an unchanging coordinate stays inside the board.
It holds where each loop starts (one step from the queen's on-board square)
and is preserved by stepping. -/
def scan_inv (board : Board) (d x : Int) : Prop :=
  (d = 0 → 0 ≤ x ∧ x < board.board_size) ∧ (0 < d → 0 ≤ x) ∧
    (d < 0 → x < board.board_size)

theorem scan_cond_congr (b1 b2 : Board) (hsize : b1.board_size = b2.board_size)
    (d x : Int) : scan_cond b1 d x ↔ scan_cond b2 d x := by
  unfold scan_cond
  rw [hsize]

theorem inside_board_congr (b1 b2 : Board)
    (hsize : b1.board_size = b2.board_size) (sq : Square) :
    inside_board sq b1 = inside_board sq b2 := by
  unfold inside_board
  rw [hsize]

theorem is_enemy_congr (me : Player) (sq : Square) (b1 b2 : Board)
    (h : b1.get_piece sq = b2.get_piece sq) :
    is_enemy me sq b1 = is_enemy me sq b2 := by
  unfold is_enemy
  rw [h]

theorem scan_inv_cond_inside (board : Board) (d x : Int)
    (hinv : scan_inv board d x) (hcond : scan_cond board d x) :
    0 ≤ x ∧ x < board.board_size := by
  unfold scan_inv at hinv
  unfold scan_cond at hcond
  omega

theorem scan_inv_step (board : Board) (d x : Int) (hinv : scan_inv board d x)
    (hcond : scan_cond board d x) : scan_inv board d (x + d) := by
  unfold scan_inv at hinv ⊢
  unfold scan_cond at hcond
  omega

/-- Every square visited by a scan whose start satisfies the invariant is
inside the board, and every returned square is empty or enemy-occupied. -/
theorem queen_scan_dir_inside_sound (me : Player) (board : Board) (dr dc : Int) :
    ∀ i j : Int, scan_inv board dr i → scan_inv board dc j →
      ∀ sq ∈ queen_scan_dir me board dr dc i j,
        inside_board sq board = true ∧
          (board.get_piece sq = none ∨ is_enemy me sq board = true) := by
  intro i j
  induction i, j using queen_scan_dir.induct me board dr dc with
  | case1 i j hz =>
    intro _ _ sq hsq
    rw [queen_scan_dir, if_pos hz] at hsq
    simp at hsq
  | case2 i j hne hcond hnone ih =>
    intro hi hj sq hsq
    have hin : inside_board (Square.mk i j) board = true := by
      rw [inside_board_eq_true_iff]
      have h1 := scan_inv_cond_inside board dr i hi hcond.1
      have h2 := scan_inv_cond_inside board dc j hj hcond.2
      exact ⟨h1.1, h1.2, h2.1, h2.2⟩
    rw [queen_scan_dir_unfold me board dr dc i j hne, if_pos hcond, hnone,
      List.mem_cons] at hsq
    rcases hsq with hsq | hsq
    · subst hsq
      exact ⟨hin, Or.inl hnone⟩
    · exact ih (scan_inv_step board dr i hi hcond.1)
        (scan_inv_step board dc j hj hcond.2) sq hsq
  | case3 i j hne hcond p hp hen =>
    intro hi hj sq hsq
    have hin : inside_board (Square.mk i j) board = true := by
      rw [inside_board_eq_true_iff]
      have h1 := scan_inv_cond_inside board dr i hi hcond.1
      have h2 := scan_inv_cond_inside board dc j hj hcond.2
      exact ⟨h1.1, h1.2, h2.1, h2.2⟩
    rw [queen_scan_dir_unfold me board dr dc i j hne, if_pos hcond, hp,
      if_pos hen, List.mem_singleton] at hsq
    subst hsq
    exact ⟨hin, Or.inr hen⟩
  | case4 i j hne hcond p hp hen =>
    intro _ _ sq hsq
    rw [queen_scan_dir_unfold me board dr dc i j hne, if_pos hcond, hp,
      if_neg hen] at hsq
    simp at hsq
  | case5 i j hne hcond =>
    intro _ _ sq hsq
    rw [queen_scan_dir_unfold me board dr dc i j hne, if_neg hcond] at hsq
    simp at hsq

/-- A scan whose start satisfies the invariant consults the occupancy oracle
only inside the board: two boards of the same size that agree on all on-board
squares produce identical scans. -/
theorem queen_scan_dir_congr (me : Player) (b1 b2 : Board)
    (hsize : b1.board_size = b2.board_size)
    (hagree : ∀ sq, inside_board sq b1 = true → b1.get_piece sq = b2.get_piece sq)
    (dr dc : Int) :
    ∀ i j : Int, scan_inv b1 dr i → scan_inv b1 dc j →
      queen_scan_dir me b1 dr dc i j = queen_scan_dir me b2 dr dc i j := by
  intro i j
  induction i, j using queen_scan_dir.induct me b1 dr dc with
  | case1 i j hz =>
    intro _ _
    rw [queen_scan_dir, if_pos hz, queen_scan_dir, if_pos hz]
  | case2 i j hne hcond hnone ih =>
    intro hi hj
    have hin : inside_board (Square.mk i j) b1 = true := by
      rw [inside_board_eq_true_iff]
      have h1 := scan_inv_cond_inside b1 dr i hi hcond.1
      have h2 := scan_inv_cond_inside b1 dc j hj hcond.2
      exact ⟨h1.1, h1.2, h2.1, h2.2⟩
    have hgp := hagree (Square.mk i j) hin
    have hcond2 : scan_cond b2 dr i ∧ scan_cond b2 dc j :=
      ⟨(scan_cond_congr b1 b2 hsize dr i).mp hcond.1,
        (scan_cond_congr b1 b2 hsize dc j).mp hcond.2⟩
    rw [queen_scan_dir_unfold me b1 dr dc i j hne, if_pos hcond,
      queen_scan_dir_unfold me b2 dr dc i j hne, if_pos hcond2, hnone,
      ← hgp, hnone]
    rw [ih (scan_inv_step b1 dr i hi hcond.1) (scan_inv_step b1 dc j hj hcond.2)]
  | case3 i j hne hcond p hp hen =>
    intro hi hj
    have hin : inside_board (Square.mk i j) b1 = true := by
      rw [inside_board_eq_true_iff]
      have h1 := scan_inv_cond_inside b1 dr i hi hcond.1
      have h2 := scan_inv_cond_inside b1 dc j hj hcond.2
      exact ⟨h1.1, h1.2, h2.1, h2.2⟩
    have hgp := hagree (Square.mk i j) hin
    have hcond2 : scan_cond b2 dr i ∧ scan_cond b2 dc j :=
      ⟨(scan_cond_congr b1 b2 hsize dr i).mp hcond.1,
        (scan_cond_congr b1 b2 hsize dc j).mp hcond.2⟩
    rw [queen_scan_dir_unfold me b1 dr dc i j hne, if_pos hcond,
      queen_scan_dir_unfold me b2 dr dc i j hne, if_pos hcond2, hp, ← hgp, hp,
      ← is_enemy_congr me (Square.mk i j) b1 b2 hgp, if_pos hen]
  | case4 i j hne hcond p hp hen =>
    intro hi hj
    have hin : inside_board (Square.mk i j) b1 = true := by
      rw [inside_board_eq_true_iff]
      have h1 := scan_inv_cond_inside b1 dr i hi hcond.1
      have h2 := scan_inv_cond_inside b1 dc j hj hcond.2
      exact ⟨h1.1, h1.2, h2.1, h2.2⟩
    have hgp := hagree (Square.mk i j) hin
    have hcond2 : scan_cond b2 dr i ∧ scan_cond b2 dc j :=
      ⟨(scan_cond_congr b1 b2 hsize dr i).mp hcond.1,
        (scan_cond_congr b1 b2 hsize dc j).mp hcond.2⟩
    rw [queen_scan_dir_unfold me b1 dr dc i j hne, if_pos hcond,
      queen_scan_dir_unfold me b2 dr dc i j hne, if_pos hcond2, hp, ← hgp, hp,
      ← is_enemy_congr me (Square.mk i j) b1 b2 hgp, if_neg hen]
  | case5 i j hne hcond =>
    intro _ _
    have hcond2 : ¬(scan_cond b2 dr i ∧ scan_cond b2 dc j) := by
      rw [← scan_cond_congr b1 b2 hsize dr i, ← scan_cond_congr b1 b2 hsize dc j]
      exact hcond
    rw [queen_scan_dir_unfold me b1 dr dc i j hne, if_neg hcond,
      queen_scan_dir_unfold me b2 dr dc i j hne, if_neg hcond2]

/-- Every square returned by the queen (placed inside the board) is inside
the board and empty or enemy-occupied. -/
theorem queen_moves_inside_sound (me : Player) (board : Board) (row col : Int)
    (hrow : 0 ≤ row ∧ row < board.board_size)
    (hcol : 0 ≤ col ∧ col < board.board_size) :
    ∀ sq ∈ queen_available_moves me (Square.mk row col) board,
      inside_board sq board = true ∧
        (board.get_piece sq = none ∨ is_enemy me sq board = true) := by
  intro sq hsq
  unfold queen_available_moves at hsq
  simp only [List.mem_append] at hsq
  have invU : scan_inv board 1 (row + 1) := by unfold scan_inv; omega
  have invD : scan_inv board (-1) (row - 1) := by unfold scan_inv; omega
  have invR : scan_inv board 1 (col + 1) := by unfold scan_inv; omega
  have invL : scan_inv board (-1) (col - 1) := by unfold scan_inv; omega
  have inv0r : scan_inv board 0 row := by unfold scan_inv; omega
  have inv0c : scan_inv board 0 col := by unfold scan_inv; omega
  rcases hsq with ((((((h | h) | h) | h) | h) | h) | h) | h
  · exact queen_scan_dir_inside_sound me board 1 0 _ _ invU inv0c sq h
  · exact queen_scan_dir_inside_sound me board (-1) 0 _ _ invD inv0c sq h
  · exact queen_scan_dir_inside_sound me board 0 1 _ _ inv0r invR sq h
  · exact queen_scan_dir_inside_sound me board 0 (-1) _ _ inv0r invL sq h
  · exact queen_scan_dir_inside_sound me board 1 1 _ _ invU invR sq h
  · exact queen_scan_dir_inside_sound me board 1 (-1) _ _ invU invL sq h
  · exact queen_scan_dir_inside_sound me board (-1) 1 _ _ invD invR sq h
  · exact queen_scan_dir_inside_sound me board (-1) (-1) _ _ invD invL sq h

/-- The queen (placed inside the board) reads the same moves off two boards
of equal size that agree on all on-board squares. -/
theorem queen_moves_congr (me : Player) (row col : Int) (b1 b2 : Board)
    (hsize : b1.board_size = b2.board_size)
    (hagree : ∀ sq, inside_board sq b1 = true → b1.get_piece sq = b2.get_piece sq)
    (hrow : 0 ≤ row ∧ row < b1.board_size)
    (hcol : 0 ≤ col ∧ col < b1.board_size) :
    queen_available_moves me (Square.mk row col) b1 =
      queen_available_moves me (Square.mk row col) b2 := by
  simp only [queen_available_moves]
  have invU : scan_inv b1 1 (row + 1) := by unfold scan_inv; omega
  have invD : scan_inv b1 (-1) (row - 1) := by unfold scan_inv; omega
  have invR : scan_inv b1 1 (col + 1) := by unfold scan_inv; omega
  have invL : scan_inv b1 (-1) (col - 1) := by unfold scan_inv; omega
  have inv0r : scan_inv b1 0 row := by unfold scan_inv; omega
  have inv0c : scan_inv b1 0 col := by unfold scan_inv; omega
  rw [queen_scan_dir_congr me b1 b2 hsize hagree 1 0 _ _ invU inv0c,
    queen_scan_dir_congr me b1 b2 hsize hagree (-1) 0 _ _ invD inv0c,
    queen_scan_dir_congr me b1 b2 hsize hagree 0 1 _ _ inv0r invR,
    queen_scan_dir_congr me b1 b2 hsize hagree 0 (-1) _ _ inv0r invL,
    queen_scan_dir_congr me b1 b2 hsize hagree 1 1 _ _ invU invR,
    queen_scan_dir_congr me b1 b2 hsize hagree 1 (-1) _ _ invU invL,
    queen_scan_dir_congr me b1 b2 hsize hagree (-1) 1 _ _ invD invR,
    queen_scan_dir_congr me b1 b2 hsize hagree (-1) (-1) _ _ invD invL]

theorem can_move_congr (me : Player) (sq : Square) (b1 b2 : Board)
    (hsize : b1.board_size = b2.board_size)
    (hagree : ∀ sq, inside_board sq b1 = true → b1.get_piece sq = b2.get_piece sq) :
    can_move me sq b1 = can_move me sq b2 := by
  unfold can_move
  rw [← inside_board_congr b1 b2 hsize]
  by_cases hin : inside_board sq b1 = true
  · rw [hagree sq hin, is_enemy_congr me sq b1 b2 (hagree sq hin)]
  · have hf : inside_board sq b1 = false := by
      simpa using hin
    rw [hf]
    simp

theorem pawn_moves_congr (me : Player) (hm : Bool) (current : Square)
    (b1 b2 : Board) (hsize : b1.board_size = b2.board_size)
    (hagree : ∀ sq, inside_board sq b1 = true → b1.get_piece sq = b2.get_piece sq) :
    pawn_available_moves me hm current b1 = pawn_available_moves me hm current b2 := by
  have hc : ∀ sq : Square,
      (inside_board sq b1 && decide (b1.get_piece sq = none)) =
        (inside_board sq b2 && decide (b2.get_piece sq = none)) := by
    intro sq
    rw [← inside_board_congr b1 b2 hsize]
    by_cases hin : inside_board sq b1 = true
    · rw [hagree sq hin]
    · have hf : inside_board sq b1 = false := by
        simpa using hin
      rw [hf]
      simp
  have he : ∀ sq : Square,
      (inside_board sq b1 && is_enemy me sq b1) =
        (inside_board sq b2 && is_enemy me sq b2) := by
    intro sq
    rw [← inside_board_congr b1 b2 hsize]
    by_cases hin : inside_board sq b1 = true
    · rw [is_enemy_congr me sq b1 b2 (hagree sq hin)]
    · have hf : inside_board sq b1 = false := by
        simpa using hin
      rw [hf]
      simp
  unfold pawn_available_moves
  simp only [hc, he]

theorem knight_moves_congr (me : Player) (current : Square) (b1 b2 : Board)
    (hsize : b1.board_size = b2.board_size)
    (hagree : ∀ sq, inside_board sq b1 = true → b1.get_piece sq = b2.get_piece sq) :
    knight_available_moves me current b1 = knight_available_moves me current b2 := by
  have hcm : ∀ sq : Square, can_move me sq b1 = can_move me sq b2 :=
    fun sq => can_move_congr me sq b1 b2 hsize hagree
  unfold knight_available_moves
  simp only [hcm]

theorem king_moves_congr (me : Player) (current : Square) (b1 b2 : Board)
    (hsize : b1.board_size = b2.board_size)
    (hagree : ∀ sq, inside_board sq b1 = true → b1.get_piece sq = b2.get_piece sq) :
    king_available_moves me current b1 = king_available_moves me current b2 := by
  have hcm : ∀ sq : Square, can_move me sq b1 = can_move me sq b2 :=
    fun sq => can_move_congr me sq b1 b2 hsize hagree
  unfold king_available_moves
  simp only [hcm]

theorem not_friendly_of_empty_or_enemy (me : Player) (board : Board) (sq : Square)
    (h : board.get_piece sq = none ∨ is_enemy me sq board = true) :
    board.get_piece sq ≠ some (OccPiece.mk me) := by
  rcases h with h | h
  · simp [h]
  · rw [is_enemy_eq_true_iff] at h
    obtain ⟨p, hp, hpl⟩ := h
    rw [hp]
    intro hc
    apply hpl
    rw [Option.some.inj hc]

theorem pawn_moves_sound (me : Player) (hm : Bool) (row col : Int) (board : Board) :
    ∀ sq ∈ pawn_available_moves me hm (Square.mk row col) board,
      inside_board sq board = true ∧
        (board.get_piece sq = none ∨ is_enemy me sq board = true) := by
  intro sq hsq
  rw [pawn_mem_iff] at hsq
  obtain ⟨⟨hfin, hfnone⟩, hd⟩ := hsq
  rcases hd with h | ⟨h, hin, hen⟩ | ⟨h, hin, hen⟩ | ⟨_, h, hin, hnone⟩
  · subst h
    exact ⟨hfin, Or.inl hfnone⟩
  · subst h
    exact ⟨hin, Or.inr hen⟩
  · subst h
    exact ⟨hin, Or.inr hen⟩
  · subst h
    exact ⟨hin, Or.inl hnone⟩

theorem knight_mem_can_move (me : Player) (current : Square) (board : Board)
    (sq : Square) (h : sq ∈ knight_available_moves me current board) :
    can_move me sq board = true := by
  unfold knight_available_moves at h
  rw [List.mem_filter] at h
  exact h.2

theorem king_mem_can_move (me : Player) (current : Square) (board : Board)
    (sq : Square) (h : sq ∈ king_available_moves me current board) :
    can_move me sq board = true := by
  unfold king_available_moves at h
  rw [List.mem_filter] at h
  exact h.2

theorem queen_directions_ne_zero (dr dc : Int) (hd : (dr, dc) ∈ queen_directions) :
    ¬(dr = 0 ∧ dc = 0) := by
  simp only [queen_directions, List.mem_cons, List.mem_singleton,
    Prod.mk.injEq, List.not_mem_nil, or_false] at hd
  rcases hd with ⟨h1, h2⟩ | ⟨h1, h2⟩ | ⟨h1, h2⟩ | ⟨h1, h2⟩ | ⟨h1, h2⟩ | ⟨h1, h2⟩ |
    ⟨h1, h2⟩ | ⟨h1, h2⟩ <;> subst h1 <;> subst h2 <;> simp

/-- At one of the eight queen directions, from an on-board start square, a
step `m ≥ 1` along the ray is inside the board exactly when the loop guard
accepts it. -/
theorem queen_step_inside_iff (board : Board) (row col dr dc : Int)
    (hrow : 0 ≤ row ∧ row < board.board_size)
    (hcol : 0 ≤ col ∧ col < board.board_size)
    (hd : (dr, dc) ∈ queen_directions) (m : Nat) (hm : 1 ≤ m) :
    inside_board (Square.mk (row + m * dr) (col + m * dc)) board = true ↔
      scan_cond board dr (row + m * dr) ∧ scan_cond board dc (col + m * dc) := by
  rw [inside_board_eq_true_iff]
  dsimp only
  simp only [queen_directions, List.mem_cons, List.mem_singleton,
    Prod.mk.injEq, List.not_mem_nil, or_false] at hd
  unfold scan_cond
  rcases hd with ⟨h1, h2⟩ | ⟨h1, h2⟩ | ⟨h1, h2⟩ | ⟨h1, h2⟩ | ⟨h1, h2⟩ | ⟨h1, h2⟩ |
    ⟨h1, h2⟩ | ⟨h1, h2⟩ <;> subst h1 <;> subst h2 <;> omega

/-! ## Claim theorems -/

/-- C6: for every piece variant placed on the board, every square returned by
`get_available_moves` is inside the board (`0 ≤ row < board_size`,
`0 ≤ col < board_size`) and is never occupied by a piece of the same
player. -/
theorem moves_inside_board_and_never_friendly (kind : PieceKind) (me : Player)
    (hm : Bool) (current : Square) (board : Board)
    (hcur : inside_board current board = true) (sq : Square)
    (hsq : sq ∈ get_available_moves kind me hm current board) :
    inside_board sq board = true ∧
      board.get_piece sq ≠ some (OccPiece.mk me) := by
  obtain ⟨row, col⟩ := current
  have hrc := (inside_board_eq_true_iff (Square.mk row col) board).mp hcur
  cases kind with
  | Pawn =>
    have h := pawn_moves_sound me hm row col board sq hsq
    exact ⟨h.1, not_friendly_of_empty_or_enemy me board sq h.2⟩
  | Knight =>
    have h := (can_move_eq_true_iff me sq board).mp
      (knight_mem_can_move me (Square.mk row col) board sq hsq)
    exact ⟨h.1, not_friendly_of_empty_or_enemy me board sq h.2⟩
  | Bishop => simp [get_available_moves, bishop_available_moves] at hsq
  | Rook => simp [get_available_moves, rook_available_moves] at hsq
  | Queen =>
    have h := queen_moves_inside_sound me board row col ⟨hrc.1, hrc.2.1⟩
      ⟨hrc.2.2.1, hrc.2.2.2⟩ sq hsq
    exact ⟨h.1, not_friendly_of_empty_or_enemy me board sq h.2⟩
  | King =>
    have h := (can_move_eq_true_iff me sq board).mp
      (king_mem_can_move me (Square.mk row col) board sq hsq)
    exact ⟨h.1, not_friendly_of_empty_or_enemy me board sq h.2⟩

/-- A board of side 8 whose only occupant is a WHITE knight at (1, 4), the
scenario of the knight tests. -/
def knight_board : Board :=
  { board_size := 8
    get_piece := fun sq =>
      if sq = Square.mk 1 4 then some (OccPiece.mk Player.WHITE) else none }

/-- Witness for C6 at a concrete input: the knight move (0,2) from (1,4) is
on-board and not friendly-occupied. -/
theorem moves_inside_board_and_never_friendly_witness :
    inside_board (Square.mk 0 2) knight_board = true ∧
    knight_board.get_piece (Square.mk 0 2) ≠ some (OccPiece.mk Player.WHITE) :=
  moves_inside_board_and_never_friendly PieceKind.Knight Player.WHITE false
    (Square.mk 1 4) knight_board (by decide) (Square.mk 0 2) (by decide)

/-- The board `knight_board` with an additional BLACK (enemy) pawn at (0, 6). -/
def knight_board_enemy : Board :=
  { board_size := 8
    get_piece := fun sq =>
      if sq = Square.mk 1 4 then some (OccPiece.mk Player.WHITE)
      else if sq = Square.mk 0 6 then some (OccPiece.mk Player.BLACK)
      else none }

/-- The board `knight_board` with an additional WHITE (friendly) pawn at (0, 6). -/
def knight_board_friendly : Board :=
  { board_size := 8
    get_piece := fun sq =>
      if sq = Square.mk 1 4 then some (OccPiece.mk Player.WHITE)
      else if sq = Square.mk 0 6 then some (OccPiece.mk Player.WHITE)
      else none }

/-- C8: a WHITE knight on (1,4) of an otherwise empty 8×8 board returns
exactly the set {(0,6),(0,2),(2,6),(2,2),(3,3),(3,5)}; with an enemy piece on
(0,6) the square (0,6) is still returned, with a friendly piece on (0,6) it
is not. -/
theorem knight_square_1_4_moves :
    (get_available_moves PieceKind.Knight Player.WHITE false (Square.mk 1 4)
        knight_board).toFinset =
      ({Square.mk 0 6, Square.mk 0 2, Square.mk 2 6, Square.mk 2 2,
        Square.mk 3 3, Square.mk 3 5} : Finset Square) ∧
    Square.mk 0 6 ∈ get_available_moves PieceKind.Knight Player.WHITE false
      (Square.mk 1 4) knight_board_enemy ∧
    Square.mk 0 6 ∉ get_available_moves PieceKind.Knight Player.WHITE false
      (Square.mk 1 4) knight_board_friendly := by
  refine ⟨by decide, by decide, by decide⟩

/-- Shared characterization of a pawn's forward-diagonal candidacy, for
either diagonal column `c2 = col ± 1`. -/
theorem pawn_diag_char (me : Player) (hm : Bool) (row col c2 : Int)
    (board : Board) (hc : c2 = col + 1 ∨ c2 = col - 1) :
    Square.mk (row + pawn_row_dir me) c2 ∈
        pawn_available_moves me hm (Square.mk row col) board ↔
      (inside_board (Square.mk (row + pawn_row_dir me) col) board = true ∧
        board.get_piece (Square.mk (row + pawn_row_dir me) col) = none) ∧
      inside_board (Square.mk (row + pawn_row_dir me) c2) board = true ∧
      is_enemy me (Square.mk (row + pawn_row_dir me) c2) board = true := by
  have hd := pawn_row_dir_ne_zero me
  rw [pawn_mem_iff]
  constructor
  · rintro ⟨hgate, hcase⟩
    refine ⟨hgate, ?_⟩
    rcases hcase with h | ⟨h, hin, hen⟩ | ⟨h, hin, hen⟩ | ⟨_, h, _, _⟩
    · exfalso
      rw [Square.mk.injEq] at h
      omega
    · rw [Square.mk.injEq] at h
      obtain ⟨-, h2⟩ := h
      subst h2
      exact ⟨hin, hen⟩
    · rw [Square.mk.injEq] at h
      obtain ⟨-, h2⟩ := h
      subst h2
      exact ⟨hin, hen⟩
    · exfalso
      rw [Square.mk.injEq] at h
      omega
  · rintro ⟨hgate, hin, hen⟩
    refine ⟨hgate, ?_⟩
    rcases hc with hc | hc
    · subst hc
      exact Or.inr (Or.inl ⟨rfl, hin, hen⟩)
    · subst hc
      exact Or.inr (Or.inr (Or.inl ⟨rfl, hin, hen⟩))

/-- C3: a pawn's forward-diagonal square is among its moves exactly when the
one-step-forward square is on-board and empty AND the diagonal square is
on-board and enemy-occupied; in particular a diagonal square that is empty or
friendly-occupied is never included, and a pawn whose forward square is
occupied has no diagonal captures. -/
theorem pawn_diag_capture_requires_forward_empty (me : Player) (hm : Bool)
    (row col c2 : Int) (board : Board) (hc : c2 = col + 1 ∨ c2 = col - 1) :
    Square.mk (row + pawn_row_dir me) c2 ∈
        get_available_moves PieceKind.Pawn me hm (Square.mk row col) board ↔
      (inside_board (Square.mk (row + pawn_row_dir me) col) board = true ∧
        board.get_piece (Square.mk (row + pawn_row_dir me) col) = none) ∧
      inside_board (Square.mk (row + pawn_row_dir me) c2) board = true ∧
      is_enemy me (Square.mk (row + pawn_row_dir me) c2) board = true :=
  pawn_diag_char me hm row col c2 board hc

/-- The scenario of the diagonal-capture test: a WHITE pawn on (3,4) with
BLACK pieces on both forward diagonals (4,5) and (4,3). -/
def pawn_capture_board : Board :=
  { board_size := 8
    get_piece := fun sq =>
      if sq = Square.mk 3 4 then some (OccPiece.mk Player.WHITE)
      else if sq = Square.mk 4 5 then some (OccPiece.mk Player.BLACK)
      else if sq = Square.mk 4 3 then some (OccPiece.mk Player.BLACK)
      else none }

/-- Witness for C3 at a concrete capture position. -/
theorem pawn_diag_capture_requires_forward_empty_witness :
    Square.mk (3 + pawn_row_dir Player.WHITE) 5 ∈
      get_available_moves PieceKind.Pawn Player.WHITE false (Square.mk 3 4)
        pawn_capture_board :=
  (pawn_diag_capture_requires_forward_empty Player.WHITE false 3 4 5
      pawn_capture_board (Or.inl (by norm_num))).mpr
    ⟨⟨by decide, by decide⟩, by decide, by decide⟩

/-- A WHITE pawn on (3,4) whose forward square (4,4) is blocked by a BLACK
piece, with another BLACK piece on the forward diagonal (4,5). -/
def pawn_blocked_board : Board :=
  { board_size := 8
    get_piece := fun sq =>
      if sq = Square.mk 3 4 then some (OccPiece.mk Player.WHITE)
      else if sq = Square.mk 4 4 then some (OccPiece.mk Player.BLACK)
      else if sq = Square.mk 4 5 then some (OccPiece.mk Player.BLACK)
      else none }

/-- C4 counterexample: the diagonal square (4,5) is on-board and
enemy-occupied, yet it is not a candidate, because the one-step-forward
square (4,4) is occupied — candidacy is not equivalent to "on-board and
enemy-occupied". -/
theorem pawn_diag_counterexample :
    inside_board (Square.mk 4 5) pawn_blocked_board = true ∧
    is_enemy Player.WHITE (Square.mk 4 5) pawn_blocked_board = true ∧
    Square.mk 4 5 ∉ get_available_moves PieceKind.Pawn Player.WHITE false
      (Square.mk 3 4) pawn_blocked_board := by
  exact ⟨by decide, by decide, by decide⟩

/-- C4 amended: each forward-diagonal square is a candidate iff the one-step
forward square is on-board and empty AND the diagonal square is on-board and
enemy-occupied (the claim's condition alone does not suffice: the forward
gate is also required). -/
theorem pawn_diag_candidate_iff (me : Player) (hm : Bool) (row col : Int)
    (board : Board) :
    (Square.mk (row + pawn_row_dir me) (col + 1) ∈
        get_available_moves PieceKind.Pawn me hm (Square.mk row col) board ↔
      (inside_board (Square.mk (row + pawn_row_dir me) col) board = true ∧
        board.get_piece (Square.mk (row + pawn_row_dir me) col) = none) ∧
      inside_board (Square.mk (row + pawn_row_dir me) (col + 1)) board = true ∧
      is_enemy me (Square.mk (row + pawn_row_dir me) (col + 1)) board = true) ∧
    (Square.mk (row + pawn_row_dir me) (col - 1) ∈
        get_available_moves PieceKind.Pawn me hm (Square.mk row col) board ↔
      (inside_board (Square.mk (row + pawn_row_dir me) col) board = true ∧
        board.get_piece (Square.mk (row + pawn_row_dir me) col) = none) ∧
      inside_board (Square.mk (row + pawn_row_dir me) (col - 1)) board = true ∧
      is_enemy me (Square.mk (row + pawn_row_dir me) (col - 1)) board = true) :=
  ⟨pawn_diag_char me hm row col (col + 1) board (Or.inl rfl),
    pawn_diag_char me hm row col (col - 1) board (Or.inr rfl)⟩

/-- An unmoved WHITE pawn alone on (6,4): its one-step square (7,4) is
on-board and empty but its two-step square (8,4) is off-board. -/
def pawn_edge_board : Board :=
  { board_size := 8
    get_piece := fun sq =>
      if sq = Square.mk 6 4 then some (OccPiece.mk Player.WHITE) else none }

/-- C5 counterexample: an unmoved pawn on an otherwise empty board returns
exactly one forward square, not two, when the two-step square is off-board. -/
theorem pawn_unmoved_single_move_counterexample :
    get_available_moves PieceKind.Pawn Player.WHITE false (Square.mk 6 4)
        pawn_edge_board = [Square.mk 7 4] ∧
    (get_available_moves PieceKind.Pawn Player.WHITE false (Square.mk 6 4)
        pawn_edge_board).length ≠ 2 := by
  exact ⟨by decide, by decide⟩

/-- C5 amended: the two-step square is a candidate exactly when `has_moved`
is false and both forward squares are on-board and empty; consequently, on an
otherwise empty board, an unmoved pawn returns exactly the one-step and
two-step squares when both are on-board, a moved pawn returns exactly the
one-step square when it is on-board, and a pawn whose one-step square is
off-board or occupied returns nothing. -/
theorem pawn_two_step_char (me : Player) (hm : Bool) (row col : Int)
    (board : Board) :
    (Square.mk (row + 2 * pawn_row_dir me) col ∈
        get_available_moves PieceKind.Pawn me hm (Square.mk row col) board ↔
      hm = false ∧
      (inside_board (Square.mk (row + pawn_row_dir me) col) board = true ∧
        board.get_piece (Square.mk (row + pawn_row_dir me) col) = none) ∧
      inside_board (Square.mk (row + 2 * pawn_row_dir me) col) board = true ∧
      board.get_piece (Square.mk (row + 2 * pawn_row_dir me) col) = none) ∧
    ((∀ sq : Square, sq ≠ Square.mk row col → board.get_piece sq = none) →
      (hm = false →
        inside_board (Square.mk (row + pawn_row_dir me) col) board = true →
        inside_board (Square.mk (row + 2 * pawn_row_dir me) col) board = true →
        get_available_moves PieceKind.Pawn me hm (Square.mk row col) board =
          [Square.mk (row + pawn_row_dir me) col,
            Square.mk (row + 2 * pawn_row_dir me) col]) ∧
      (hm = true →
        inside_board (Square.mk (row + pawn_row_dir me) col) board = true →
        get_available_moves PieceKind.Pawn me hm (Square.mk row col) board =
          [Square.mk (row + pawn_row_dir me) col])) ∧
    (¬(inside_board (Square.mk (row + pawn_row_dir me) col) board = true ∧
        board.get_piece (Square.mk (row + pawn_row_dir me) col) = none) →
      get_available_moves PieceKind.Pawn me hm (Square.mk row col) board = []) := by
  have hd := pawn_row_dir_ne_zero me
  refine ⟨?_, ?_, ?_⟩
  · show Square.mk (row + 2 * pawn_row_dir me) col ∈
        pawn_available_moves me hm (Square.mk row col) board ↔ _
    rw [pawn_mem_iff]
    constructor
    · rintro ⟨hgate, hcase⟩
      rcases hcase with h | ⟨h, _, _⟩ | ⟨h, _, _⟩ | ⟨hhm, _, hin, hnone⟩
      · exfalso
        rw [Square.mk.injEq] at h
        omega
      · exfalso
        rw [Square.mk.injEq] at h
        omega
      · exfalso
        rw [Square.mk.injEq] at h
        omega
      · exact ⟨hhm, hgate, hin, hnone⟩
    · rintro ⟨hhm, hgate, hin, hnone⟩
      exact ⟨hgate, Or.inr (Or.inr (Or.inr ⟨hhm, rfl, hin, hnone⟩))⟩
  · intro hempty
    have h1 : board.get_piece (Square.mk (row + pawn_row_dir me) col) = none := by
      apply hempty
      intro h
      rw [Square.mk.injEq] at h
      omega
    have h2 : board.get_piece (Square.mk (row + pawn_row_dir me) (col + 1)) = none := by
      apply hempty
      intro h
      rw [Square.mk.injEq] at h
      omega
    have h3 : board.get_piece (Square.mk (row + pawn_row_dir me) (col - 1)) = none := by
      apply hempty
      intro h
      rw [Square.mk.injEq] at h
      omega
    have h4 : board.get_piece (Square.mk (row + 2 * pawn_row_dir me) col) = none := by
      apply hempty
      intro h
      rw [Square.mk.injEq] at h
      omega
    have e2 := is_enemy_of_none me (Square.mk (row + pawn_row_dir me) (col + 1)) board h2
    have e3 := is_enemy_of_none me (Square.mk (row + pawn_row_dir me) (col - 1)) board h3
    constructor
    · intro hhm hin1 hin2
      subst hhm
      show pawn_available_moves me false (Square.mk row col) board = _
      unfold pawn_available_moves
      simp [hin1, hin2, h1, h4, e2, e3]
    · intro hhm hin1
      subst hhm
      show pawn_available_moves me true (Square.mk row col) board = _
      unfold pawn_available_moves
      simp [hin1, h1, e2, e3]
  · intro hbad
    show pawn_available_moves me hm (Square.mk row col) board = []
    unfold pawn_available_moves
    have hcond : (inside_board (Square.mk (row + pawn_row_dir me) col) board &&
        decide (board.get_piece (Square.mk (row + pawn_row_dir me) col) = none)) =
          false := by
      cases hA : inside_board (Square.mk (row + pawn_row_dir me) col) board with
      | false => simp
      | true =>
        have hN : ¬board.get_piece (Square.mk (row + pawn_row_dir me) col) = none :=
          fun hN => hbad ⟨hA, hN⟩
        simp [hN]
    simp only [hcond]
    simp

/-- The home-row scenario: an unmoved WHITE pawn alone on (1,4). -/
def pawn_home_board : Board :=
  { board_size := 8
    get_piece := fun sq =>
      if sq = Square.mk 1 4 then some (OccPiece.mk Player.WHITE) else none }

/-- Witness for the amended C5 at concrete positions: the unmoved pawn on
(1,4) returns exactly two squares, and after moving it returns exactly one. -/
theorem pawn_two_step_char_witness :
    get_available_moves PieceKind.Pawn Player.WHITE false (Square.mk 1 4)
        pawn_home_board = [Square.mk 2 4, Square.mk 3 4] ∧
    get_available_moves PieceKind.Pawn Player.WHITE true (Square.mk 1 4)
        pawn_home_board = [Square.mk 2 4] :=
  ⟨((pawn_two_step_char Player.WHITE false 1 4 pawn_home_board).2.1
      (fun _ h => if_neg h)).1 rfl (by decide) (by decide),
    ((pawn_two_step_char Player.WHITE true 1 4 pawn_home_board).2.1
      (fun _ h => if_neg h)).2 rfl (by decide)⟩

theorem queen_scan_dir_cons_of_none (me : Player) (board : Board)
    (dr dc i j : Int) (hne : ¬(dr = 0 ∧ dc = 0))
    (hcond : scan_cond board dr i ∧ scan_cond board dc j)
    (hnone : board.get_piece (Square.mk i j) = none) :
    queen_scan_dir me board dr dc i j =
      Square.mk i j :: queen_scan_dir me board dr dc (i + dr) (j + dc) := by
  rw [queen_scan_dir_unfold me board dr dc i j hne, if_pos hcond, hnone]

/-- A WHITE rook (or bishop) alone on (4,4) of an 8×8 board. -/
def rook_board : Board :=
  { board_size := 8
    get_piece := fun sq =>
      if sq = Square.mk 4 4 then some (OccPiece.mk Player.WHITE) else none }

/-- C1 counterexample: from (4,4) on an otherwise empty board the upward
orthogonal scan contains (5,4) and the up-right diagonal scan contains (5,5),
yet `Rook.get_available_moves` and `Bishop.get_available_moves` return no
squares at all, so neither equals the union of its directional scans. -/
theorem rook_bishop_scan_counterexample :
    Square.mk 5 4 ∈ queen_scan_dir Player.WHITE rook_board 1 0 (4 + 1) 4 ∧
    Square.mk 5 4 ∉ get_available_moves PieceKind.Rook Player.WHITE false
      (Square.mk 4 4) rook_board ∧
    Square.mk 5 5 ∈ queen_scan_dir Player.WHITE rook_board 1 1 (4 + 1) (4 + 1) ∧
    Square.mk 5 5 ∉ get_available_moves PieceKind.Bishop Player.WHITE false
      (Square.mk 4 4) rook_board := by
  refine ⟨?_, by decide, ?_, by decide⟩
  · rw [queen_scan_dir_cons_of_none Player.WHITE rook_board 1 0 (4 + 1) 4
      (by decide) ⟨by decide, by decide⟩ (by decide)]
    exact List.mem_cons_self _ _
  · rw [queen_scan_dir_cons_of_none Player.WHITE rook_board 1 1 (4 + 1) (4 + 1)
      (by decide) ⟨by decide, by decide⟩ (by decide)]
    exact List.mem_cons_self _ _

/-- C1 amended: `Rook.get_available_moves` and `Bishop.get_available_moves`
return the empty list on every board — the directional scans are implemented
only in the Queen. -/
theorem rook_bishop_always_empty (me : Player) (hm : Bool) (current : Square)
    (board : Board) :
    get_available_moves PieceKind.Rook me hm current board = [] ∧
    get_available_moves PieceKind.Bishop me hm current board = [] :=
  ⟨rfl, rfl⟩

/-- C7: `move_to` performs the relocation and sets `has_moved` to true
unconditionally, for every destination — it never validates the destination
against `get_available_moves`.  In the occupancy-oracle board model,
"`find_piece` returns the destination afterwards" reads: the destination
square now holds what the source square held, the source square is cleared,
and no other square changed; and the `has_moved` flag produced by any later
`move_to` call is again true — it never reverts. -/
theorem move_to_unconditional (board : Board) (current_square new_square : Square)
    (hm : Bool) :
    (move_to board current_square new_square hm).2 = true ∧
    (move_to board current_square new_square hm).1.get_piece new_square =
      board.get_piece current_square ∧
    (current_square ≠ new_square →
      (move_to board current_square new_square hm).1.get_piece current_square =
        none) ∧
    (∀ sq : Square, sq ≠ new_square → sq ≠ current_square →
      (move_to board current_square new_square hm).1.get_piece sq =
        board.get_piece sq) ∧
    (∀ (b2 : Board) (c2 n2 : Square),
      (move_to b2 c2 n2 (move_to board current_square new_square hm).2).2 =
        true) := by
  refine ⟨rfl, ?_, ?_, ?_, fun _ _ _ => rfl⟩
  · show (if new_square = new_square then board.get_piece current_square
        else _) = board.get_piece current_square
    rw [if_pos rfl]
  · intro hne
    show (if current_square = new_square then board.get_piece current_square
        else if current_square = current_square then none
        else board.get_piece current_square) = none
    rw [if_neg hne, if_pos rfl]
  · intro sq h1 h2
    show (if sq = new_square then board.get_piece current_square
        else if sq = current_square then none
        else board.get_piece sq) = board.get_piece sq
    rw [if_neg h1, if_neg h2]

/-- Witness for C7: moving the piece at (1,4) to (5,5) — a square that is not
among the knight's available moves — is not rejected: the flag is set, the
piece lands on (5,5), the source is cleared, (0,0) is untouched, and a second
call still reports the flag true. -/
theorem move_to_unconditional_witness :
    Square.mk 5 5 ∉ get_available_moves PieceKind.Knight Player.WHITE false
      (Square.mk 1 4) knight_board ∧
    (move_to knight_board (Square.mk 1 4) (Square.mk 5 5) false).2 = true ∧
    (move_to knight_board (Square.mk 1 4) (Square.mk 5 5) false).1.get_piece
      (Square.mk 5 5) = some (OccPiece.mk Player.WHITE) ∧
    (move_to knight_board (Square.mk 1 4) (Square.mk 5 5) false).1.get_piece
      (Square.mk 1 4) = none ∧
    (move_to knight_board (Square.mk 1 4) (Square.mk 5 5) false).1.get_piece
      (Square.mk 0 0) = none ∧
    (move_to emptyBoard8 (Square.mk 0 0) (Square.mk 1 1)
      (move_to knight_board (Square.mk 1 4) (Square.mk 5 5) false).2).2 = true :=
  ⟨by decide,
    (move_to_unconditional knight_board (Square.mk 1 4) (Square.mk 5 5) false).1,
    ((move_to_unconditional knight_board (Square.mk 1 4) (Square.mk 5 5)
        false).2.1).trans (by decide),
    (move_to_unconditional knight_board (Square.mk 1 4) (Square.mk 5 5)
        false).2.2.1 (by decide),
    ((move_to_unconditional knight_board (Square.mk 1 4) (Square.mk 5 5)
        false).2.2.2.1 (Square.mk 0 0) (by decide) (by decide)).trans (by decide),
    (move_to_unconditional knight_board (Square.mk 1 4) (Square.mk 5 5)
        false).2.2.2.2 emptyBoard8 (Square.mk 0 0) (Square.mk 1 1)⟩

/-- C9 (stated extensionally): every piece variant's `get_available_moves`
consults the occupancy oracle only at squares that pass the bounds check, so
two boards of equal size that agree on every on-board square produce
identical results for a piece placed inside the board. -/
theorem get_piece_only_queried_inside (kind : PieceKind) (me : Player)
    (hm : Bool) (current : Square) (b1 b2 : Board)
    (hsize : b1.board_size = b2.board_size)
    (hagree : ∀ sq, inside_board sq b1 = true → b1.get_piece sq = b2.get_piece sq)
    (hcur : inside_board current b1 = true) :
    get_available_moves kind me hm current b1 =
      get_available_moves kind me hm current b2 := by
  obtain ⟨row, col⟩ := current
  have hrc := (inside_board_eq_true_iff (Square.mk row col) b1).mp hcur
  cases kind with
  | Pawn => exact pawn_moves_congr me hm (Square.mk row col) b1 b2 hsize hagree
  | Knight => exact knight_moves_congr me (Square.mk row col) b1 b2 hsize hagree
  | Bishop => rfl
  | Rook => rfl
  | Queen =>
    exact queen_moves_congr me row col b1 b2 hsize hagree ⟨hrc.1, hrc.2.1⟩
      ⟨hrc.2.2.1, hrc.2.2.2⟩
  | King => exact king_moves_congr me (Square.mk row col) b1 b2 hsize hagree

/-- A board of side 8 whose only occupant sits on the off-board square
(-1,-1): indistinguishable from the empty board on all on-board squares. -/
def offboard_occupant_board : Board :=
  { board_size := 8
    get_piece := fun sq =>
      if sq = Square.mk (-1) (-1) then some (OccPiece.mk Player.BLACK)
      else none }

/-- Witness for C9: the knight's moves do not change when the occupancy
oracle is altered on an off-board square only. -/
theorem get_piece_only_queried_inside_witness :
    get_available_moves PieceKind.Knight Player.WHITE false (Square.mk 1 4)
        emptyBoard8 =
      get_available_moves PieceKind.Knight Player.WHITE false (Square.mk 1 4)
        offboard_occupant_board :=
  get_piece_only_queried_inside PieceKind.Knight Player.WHITE false
    (Square.mk 1 4) emptyBoard8 offboard_occupant_board rfl
    (fun sq h => by
      have hb := (inside_board_eq_true_iff sq emptyBoard8).mp h
      show none = if sq = Square.mk (-1) (-1) then some (OccPiece.mk Player.BLACK)
        else none
      rw [if_neg]
      intro he
      subst he
      simp at hb)
    (by decide)

/-- C10: no piece variant ever returns its own current square — the King's
offset enumeration does generate the (0,0) offset, but the king's own square
is rejected because it is occupied by a piece of the king's own player. -/
theorem own_square_never_returned (kind : PieceKind) (me : Player) (hm : Bool)
    (row col : Int) (board : Board)
    (hself : board.get_piece (Square.mk row col) = some (OccPiece.mk me)) :
    Square.mk row col ∉ get_available_moves kind me hm (Square.mk row col) board := by
  intro hmem
  have hd := pawn_row_dir_ne_zero me
  cases kind with
  | Pawn =>
    rw [show get_available_moves PieceKind.Pawn me hm (Square.mk row col) board =
        pawn_available_moves me hm (Square.mk row col) board from rfl,
      pawn_mem_iff] at hmem
    obtain ⟨-, hcase⟩ := hmem
    rcases hcase with h | ⟨h, -, -⟩ | ⟨h, -, -⟩ | ⟨-, h, -, -⟩ <;>
      (rw [Square.mk.injEq] at h; omega)
  | Knight =>
    have h := (can_move_eq_true_iff me _ board).mp
      (knight_mem_can_move me _ board _ hmem)
    rcases h.2 with h2 | h2
    · rw [hself] at h2
      exact Option.noConfusion h2
    · rw [is_enemy_eq_true_iff] at h2
      obtain ⟨p, hp, hpl⟩ := h2
      rw [hself] at hp
      apply hpl
      rw [← Option.some.inj hp]
  | Bishop => simp [get_available_moves, bishop_available_moves] at hmem
  | Rook => simp [get_available_moves, rook_available_moves] at hmem
  | Queen =>
    rw [show get_available_moves PieceKind.Queen me hm (Square.mk row col) board =
        queen_available_moves me (Square.mk row col) board from rfl] at hmem
    simp only [queen_available_moves, List.mem_append] at hmem
    rcases hmem with ((((((h | h) | h) | h) | h) | h) | h) | h <;>
      (obtain ⟨n, heq, -, -, -⟩ := queen_scan_dir_sound me board _ _ _ _ _ h;
        rw [Square.mk.injEq] at heq; omega)
  | King =>
    have h := (can_move_eq_true_iff me _ board).mp
      (king_mem_can_move me _ board _ hmem)
    rcases h.2 with h2 | h2
    · rw [hself] at h2
      exact Option.noConfusion h2
    · rw [is_enemy_eq_true_iff] at h2
      obtain ⟨p, hp, hpl⟩ := h2
      rw [hself] at hp
      apply hpl
      rw [← Option.some.inj hp]

/-- Witness for C10: the king on (1,4) does not return its own square. -/
theorem own_square_never_returned_witness :
    Square.mk 1 4 ∉ get_available_moves PieceKind.King Player.WHITE false
      (Square.mk 1 4) knight_board :=
  own_square_never_returned PieceKind.King Player.WHITE false 1 4 knight_board
    (by decide)

/-- C2: the Queen's moves are the concatenation of the eight directional
scans, each starting one step from the queen's square; and in each scan, for
a queen placed inside the board, the square `k` steps along the direction is
returned iff every strictly earlier step is on-board and empty, the `k`-th
step is on-board, and the `k`-th step is empty or enemy-occupied.  Hence
every empty square encountered is included and the scan continues, the first
occupied square encountered is included iff its occupant is an enemy, and no
square beyond the first occupied square is ever included. -/
theorem queen_scan_correct (board : Board) (me : Player) (row col dr dc : Int)
    (k : Nat) (hrow : 0 ≤ row ∧ row < board.board_size)
    (hcol : 0 ≤ col ∧ col < board.board_size)
    (hd : (dr, dc) ∈ queen_directions) (hk : 1 ≤ k) :
    queen_available_moves me (Square.mk row col) board =
      queen_scan_dir me board 1 0 (row + 1) col ++
        queen_scan_dir me board (-1) 0 (row - 1) col ++
        queen_scan_dir me board 0 1 row (col + 1) ++
        queen_scan_dir me board 0 (-1) row (col - 1) ++
        queen_scan_dir me board 1 1 (row + 1) (col + 1) ++
        queen_scan_dir me board 1 (-1) (row + 1) (col - 1) ++
        queen_scan_dir me board (-1) 1 (row - 1) (col + 1) ++
        queen_scan_dir me board (-1) (-1) (row - 1) (col - 1) ∧
    (Square.mk (row + k * dr) (col + k * dc) ∈
        queen_scan_dir me board dr dc (row + dr) (col + dc) ↔
      (∀ m : Nat, 1 ≤ m → m < k →
        inside_board (Square.mk (row + m * dr) (col + m * dc)) board = true ∧
        board.get_piece (Square.mk (row + m * dr) (col + m * dc)) = none) ∧
      inside_board (Square.mk (row + k * dr) (col + k * dc)) board = true ∧
      (board.get_piece (Square.mk (row + k * dr) (col + k * dc)) = none ∨
        is_enemy me (Square.mk (row + k * dr) (col + k * dc)) board = true)) := by
  have hne := queen_directions_ne_zero dr dc hd
  have hkey : ∀ m : Nat,
      Square.mk (row + dr + (m : Int) * dr) (col + dc + (m : Int) * dc) =
        Square.mk (row + ((m + 1 : Nat) : Int) * dr)
          (col + ((m + 1 : Nat) : Int) * dc) := by
    intro m
    rw [Square.mk.injEq]
    constructor <;> (push_cast; ring)
  constructor
  · simp only [queen_available_moves]
  constructor
  · intro hmem
    obtain ⟨n, heq, hconds, hempty, hocc⟩ :=
      queen_scan_dir_sound me board dr dc (row + dr) (col + dc) _ hmem
    rw [hkey n] at heq
    have hkn : k = n + 1 := by
      rw [Square.mk.injEq] at heq
      obtain ⟨h1, h2⟩ := heq
      have h1' : ((k : Int) - ((n : Int) + 1)) * dr = 0 := by
        have h1'' : (k : Int) * dr = ((n : Int) + 1) * dr := by
          push_cast at h1
          linarith
        rw [sub_mul]
        linarith
      have h2' : ((k : Int) - ((n : Int) + 1)) * dc = 0 := by
        have h2'' : (k : Int) * dc = ((n : Int) + 1) * dc := by
          push_cast at h2
          linarith
        rw [sub_mul]
        linarith
      rcases mul_eq_zero.mp h1' with hz | hz
      · omega
      rcases mul_eq_zero.mp h2' with hz2 | hz2
      · omega
      · exact absurd ⟨hz, hz2⟩ hne
    subst hkn
    refine ⟨?_, ?_, hocc⟩
    · intro m hm1 hmk
      have hc := hconds (m - 1) (by omega)
      have he := hempty (m - 1) (by omega)
      have crd1 : row + dr + ((m - 1 : Nat) : Int) * dr = row + (m : Int) * dr := by
        rw [Nat.cast_sub hm1]
        push_cast
        ring
      have crd2 : col + dc + ((m - 1 : Nat) : Int) * dc = col + (m : Int) * dc := by
        rw [Nat.cast_sub hm1]
        push_cast
        ring
      rw [crd1, crd2] at hc he
      exact ⟨(queen_step_inside_iff board row col dr dc hrow hcol hd m hm1).mpr hc, he⟩
    · have hc := hconds n (le_refl n)
      have crd1 : row + dr + (n : Int) * dr = row + ((n + 1 : Nat) : Int) * dr := by
        push_cast
        ring
      have crd2 : col + dc + (n : Int) * dc = col + ((n + 1 : Nat) : Int) * dc := by
        push_cast
        ring
      rw [crd1, crd2] at hc
      exact (queen_step_inside_iff board row col dr dc hrow hcol hd (n + 1)
        (by omega)).mpr hc
  · rintro ⟨hsteps, hin, hocc⟩
    have hsqk : Square.mk (row + dr + ((k - 1 : Nat) : Int) * dr)
        (col + dc + ((k - 1 : Nat) : Int) * dc) =
          Square.mk (row + (k : Int) * dr) (col + (k : Int) * dc) := by
      rw [Square.mk.injEq]
      constructor <;> (rw [Nat.cast_sub hk]; push_cast; ring)
    have hmem := queen_scan_dir_complete me board dr dc hne (k - 1)
      (row + dr) (col + dc) ?_ ?_ ?_
    · rw [hsqk] at hmem
      exact hmem
    · intro m hm
      by_cases hlt : m + 1 < k
      · have hc := (queen_step_inside_iff board row col dr dc hrow hcol hd
          (m + 1) (by omega)).mp (hsteps (m + 1) (by omega) hlt).1
        have crd1 : row + ((m + 1 : Nat) : Int) * dr = row + dr + (m : Int) * dr := by
          push_cast
          ring
        have crd2 : col + ((m + 1 : Nat) : Int) * dc = col + dc + (m : Int) * dc := by
          push_cast
          ring
        rw [crd1, crd2] at hc
        exact hc
      · have hmk : m + 1 = k := by omega
        have hc := (queen_step_inside_iff board row col dr dc hrow hcol hd
          k hk).mp hin
        have crd1 : row + (k : Int) * dr = row + dr + (m : Int) * dr := by
          rw [← hmk]
          push_cast
          ring
        have crd2 : col + (k : Int) * dc = col + dc + (m : Int) * dc := by
          rw [← hmk]
          push_cast
          ring
        rw [crd1, crd2] at hc
        exact hc
    · intro m hm
      rw [hkey m]
      exact (hsteps (m + 1) (by omega) (by omega)).2
    · rw [hsqk]
      exact hocc

/-- A board holding a WHITE queen on (4,4) and a BLACK piece on (6,4): the
upward scan passes the empty (5,4), stops at (6,4), includes it as an enemy,
and never reaches (7,4). -/
def queen_scan_board : Board :=
  { board_size := 8
    get_piece := fun sq =>
      if sq = Square.mk 4 4 then some (OccPiece.mk Player.WHITE)
      else if sq = Square.mk 6 4 then some (OccPiece.mk Player.BLACK)
      else none }

/-- Witness for C2 on the upward scan of `queen_scan_board`: step 1 (empty)
is included, step 2 (first occupied, enemy) is included, step 3 (beyond the
first occupied square) is not. -/
theorem queen_scan_correct_witness :
    Square.mk (4 + (1 : Nat) * 1) (4 + (1 : Nat) * 0) ∈
      queen_scan_dir Player.WHITE queen_scan_board 1 0 (4 + 1) (4 + 0) ∧
    Square.mk (4 + (2 : Nat) * 1) (4 + (2 : Nat) * 0) ∈
      queen_scan_dir Player.WHITE queen_scan_board 1 0 (4 + 1) (4 + 0) ∧
    Square.mk (4 + (3 : Nat) * 1) (4 + (3 : Nat) * 0) ∉
      queen_scan_dir Player.WHITE queen_scan_board 1 0 (4 + 1) (4 + 0) := by
  refine ⟨?_, ?_, ?_⟩
  · exact (queen_scan_correct queen_scan_board Player.WHITE 4 4 1 0 1
      (by decide) (by decide) (by decide) (by decide)).2.mpr
      ⟨fun m hm1 hm2 => by omega, by decide, by decide⟩
  · exact (queen_scan_correct queen_scan_board Player.WHITE 4 4 1 0 2
      (by decide) (by decide) (by decide) (by decide)).2.mpr
      ⟨fun m hm1 hm2 => by
        have : m = 1 := by omega
        subst this
        exact ⟨by decide, by decide⟩, by decide, by decide⟩
  · intro hmem
    have h := (queen_scan_correct queen_scan_board Player.WHITE 4 4 1 0 3
      (by decide) (by decide) (by decide) (by decide)).2.mp hmem
    have h2 := (h.1 2 (by omega) (by omega)).2
    revert h2
    decide

end Chessington
